import Mathlib

/-!
# Verification of the multi-agent financial analyst pipeline

Shallow embedding of the core pipeline of the repository
(`coordinator_agent.py`, `data_utils.py`, `market_data_agent.py`,
`web_news_agent.py`, `nlp_agent.py`) together with proofs settling the
specification claims.

External effects (the Yahoo Finance price feed, the news HTTP fetch, the
trained sklearn classifier, and the Ollama LLM call) are modelled as
oracle functions supplied as parameters; everything the repository itself
computes is translated directly from the Python source.  Prices are
modelled as rationals (the source uses Python floats; no claim depends on
float-specific behaviour other than "division by zero raises", which
Python float division does).  Characters are Lean `Char`s; the
`re` word/letter character classes are modelled over their ASCII range
plus the accented Spanish letters named explicitly in the source.
-/

namespace FinAnalyst

/-- Python-style first-occurrence deduplication, embedding the
`seen` set / `unique` list loop of `extract_tickers_from_query`
(`coordinator_agent.py`): keep the first occurrence of each element,
in order. -/
def dedupFirst : List String → List String :=
  go []
where
  /-- `seen` accumulator version of the loop. -/
  go (seen : List String) : List String → List String
    | [] => []
    | x :: xs => if seen.contains x then go seen xs else x :: go (x :: seen) xs

/-- The ASCII fragment of Python's regex word-character class `\w`
(letters, digits, underscore), which is what the `\b` anchors of
`TICKER_PATTERN = r"\b[A-Z]{1,5}\b"` test.  (Python's `\w` is
Unicode-wide; the inputs relevant to the claims are ASCII, and the
model takes the ASCII fragment.) -/
def isWordChar (c : Char) : Bool :=
  c.isAlpha || c.isDigit || c == '_'

/-- Uppercase ASCII letter, the character class `[A-Z]` of
`TICKER_PATTERN` (`Char.isUpper` is exactly the range `'A'..'Z'`). -/
def isUpperAZ (c : Char) : Bool :=
  c.isUpper

/-- One-pass scanner embedding `re.findall(r"\b[A-Z]{1,5}\b", query)`
from `extract_tickers_from_query` (`coordinator_agent.py`).

The regex engine attempts a match at each position.  A position can
start a match only when it lies at a word boundary, i.e. the previous
character is not a word character (tracked by the `prevWord` flag).
From such a position the engine greedily consumes uppercase letters;
backtracking over `[A-Z]{1,5}` can never succeed once the trailing `\b`
fails, because every shorter prefix is followed by an uppercase (word)
character.  Hence a match is exactly a maximal uppercase run that starts
at a word boundary, ends before a non-word character (or the end of
input), and has length at most 5.  The scanner accumulates the current
candidate run in `acc` (reversed); on success `findall` resumes right
after the match, which is what emitting and continuing with the rest
does. -/
def scanGo : Option (List Char) → Bool → List Char → List (List Char)
  | some acc, _, [] => if acc.length ≤ 5 then [acc.reverse] else []
  | none, _, [] => []
  | some acc, _, c :: cs =>
    if isUpperAZ c then
      scanGo (some (c :: acc)) true cs
    else if isWordChar c then
      scanGo none true cs
    else
      (if acc.length ≤ 5 then [acc.reverse] else []) ++ scanGo none false cs
  | none, prevWord, c :: cs =>
    if !prevWord && isUpperAZ c then
      scanGo (some [c]) true cs
    else
      scanGo none (isWordChar c) cs

/-- `extract_tickers_from_query` (`coordinator_agent.py`):
`re.findall(r"\b[A-Z]{1,5}\b", query)` followed by first-occurrence
deduplication. -/
def extract_tickers_from_query (query : String) : List String :=
  dedupFirst ((scanGo none false query.data).map (fun r => String.mk r))

/-! ## Declarative characterisations of the extraction, for claim C3

`maximalRuns wc cs` splits `cs` into its maximal runs of characters
satisfying `wc`, in order.  With `wc := isWordChar` and the filter
`goodRun` this is the amended reading of the claim ("maximal runs of
1–5 uppercase letters bounded by non-word boundaries"); with
`wc := Char.isAlpha` (ASCII letters) it is the claim's literal reading
("bounded by non-letter boundaries"): a maximal run of uppercase
letters whose neighbours are non-letters is exactly a maximal run of
letters that happens to be entirely uppercase, since uppercase letters
are letters. -/

/-- Maximal runs of `wc`-characters of a character list, in order. -/
def maximalRuns (wc : Char → Bool) (cs : List Char) : List (List Char) :=
  (cs.splitOnP (fun c => !(wc c))).filter (fun r => !r.isEmpty)

/-- A run is accepted by the pattern when it is entirely uppercase and
has length 1–5 (membership in `maximalRuns` already forces length ≥ 1). -/
def goodRun (r : List Char) : Bool :=
  r.all isUpperAZ && r.length ≤ 5

/-- The maximal runs accepted by the pattern, for a given
word-character class `wc`. -/
def acceptedRuns (wc : Char → Bool) (cs : List Char) : List (List Char) :=
  (maximalRuns wc cs).filter goodRun

/-- The claim's literal reading of the extraction algorithm: maximal
runs of 1–5 uppercase ASCII letters bounded by NON-LETTER boundaries,
first-occurrence deduplicated. -/
def claimedExtract (query : String) : List String :=
  dedupFirst ((acceptedRuns Char.isAlpha query.data).map (fun r => String.mk r))

/-- The amended reading: maximal runs of 1–5 uppercase ASCII letters
bounded by NON-WORD boundaries (characters other than letters, digits
and underscore), first-occurrence deduplicated. -/
def wordBoundedExtract (query : String) : List String :=
  dedupFirst ((acceptedRuns isWordChar query.data).map (fun r => String.mk r))

/-! ## Text normalisation (`NLPAgent._clean_text`, `nlp_agent.py`)

`_clean_text` lowercases, replaces every character outside
`[a-záéíóúñü0-9\s]` by a space, tokenizes with NLTK's Spanish
`word_tokenize`, drops stop-words and tokens of length ≤ 2, and rejoins
with single spaces.  On text containing only the kept letter/digit
classes and whitespace — which is all `word_tokenize` ever receives
here, since the substitution has already run — NLTK's tokenizer is
whitespace splitting, which is how it is modelled.  The NLTK Spanish
stop-word list is external data, so the stop-word set is a parameter;
every theorem below holds for an arbitrary set. -/

/-- Python `str.lower()` restricted to the characters relevant here:
ASCII (Lean's `Char.toLower`) plus the accented Spanish uppercase
letters named in the source's character class. -/
def pyLower (c : Char) : Char :=
  if c = 'Á' then 'á' else if c = 'É' then 'é' else if c = 'Í' then 'í'
  else if c = 'Ó' then 'ó' else if c = 'Ú' then 'ú' else if c = 'Ñ' then 'ñ'
  else if c = 'Ü' then 'ü' else c.toLower

/-- The accented lowercase letters of the regex class `[a-záéíóúñü0-9\s]`. -/
def isSpanishAccent (c : Char) : Bool :=
  c = 'á' || c = 'é' || c = 'í' || c = 'ó' || c = 'ú' || c = 'ñ' || c = 'ü'

/-- Membership in the kept (non-whitespace) part of the class
`[a-záéíóúñü0-9\s]`: lowercase ASCII letters, the accented Spanish
letters, digits. -/
def keepChar (c : Char) : Bool :=
  c.isLower || isSpanishAccent c || c.isDigit

/-- `re.sub(r"[^a-záéíóúñü0-9\s]", " ", text)`: every character outside
the class becomes a space; kept characters and whitespace pass through. -/
def subSymbols (cs : List Char) : List Char :=
  cs.map (fun c => if keepChar c || c.isWhitespace then c else ' ')

/-- `word_tokenize` on symbol-free text: split on whitespace, dropping
empty fragments. -/
def tokenize (cs : List Char) : List (List Char) :=
  (cs.splitOnP (fun c => c.isWhitespace)).filter (fun t => !t.isEmpty)

/-- The token pipeline of `_clean_text`: lowercase, substitute symbols,
tokenize, then keep tokens that are not stop-words and have length > 2. -/
def cleanTokens (stop : List Char → Bool) (cs : List Char) : List (List Char) :=
  (tokenize (subSymbols (cs.map pyLower))).filter (fun t => !stop t && 2 < t.length)

/-- `" ".join(tokens)`. -/
def joinTokens : List (List Char) → List Char
  | [] => []
  | t :: ts =>
    match ts with
    | [] => t
    | _ :: _ => t ++ ' ' :: joinTokens ts

/-- `NLPAgent._clean_text` (`nlp_agent.py`), parameterised by the
stop-word set. -/
def clean_text (stop : List Char → Bool) (s : String) : String :=
  String.mk (joinTokens (cleanTokens stop s.data))

/-! ## Sentiment analysis (`NLPAgent.analyze`, `nlp_agent.py`)

The trained TF-IDF + Naive-Bayes predictor is external state produced
by sklearn; it enters the model as an oracle `classify` mapping a
cleaned title to one of the three labels, exactly the role
`self.clf.predict` plays per headline. -/

/-- The three sentiment labels (`label_to_int` keys). -/
inductive Label where
  | positivo : Label
  | negativo : Label
  | neutral : Label
deriving DecidableEq, Repr

/-- The label's string form (`int_to_label` values). -/
def labelName : Label → String
  | .positivo => "positivo"
  | .negativo => "negativo"
  | .neutral => "neutral"

/-- One news item: `{"titulo": ..., "url": ...}` (`data_utils.py`);
`url = none` models `None`. -/
structure Article where
  titulo : String
  url : Option String
deriving DecidableEq, Repr

/-- One ticker's entry in the news dictionary:
`{"raw": [...], "clean": ...}`. -/
structure NewsEntry where
  raw : List Article
  clean : Option (List String)
deriving DecidableEq, Repr

/-- Per-ticker sentiment summary returned by `NLPAgent.analyze`. -/
structure SentimentResult where
  sentiments : List String
  sentiment_global : String
  num_pos : Nat
  num_neg : Nat
  num_neu : Nat
deriving DecidableEq, Repr

/-- Python's `max(counts, key=counts.get)` over a dict with the given
first key and remaining keys in insertion order: scan the keys,
replacing the current best only on a strictly larger value, so the
FIRST key attaining the maximum wins. -/
def pyDictMax (first : String × Nat) (rest : List (String × Nat)) : String :=
  (rest.foldl (fun best q => if best.2 < q.2 then q else best) first).1

/-- `[a.get("titulo", "") for a in raw_articles if a.get("titulo")]`:
the titles of the articles whose title is truthy (non-empty). -/
def titlesOf (raw : List Article) : List String :=
  (raw.map (fun a => a.titulo)).filter (fun t => t ≠ "")

/-- The per-ticker body of `NLPAgent.analyze`: zero non-empty titles
give the all-neutral summary; otherwise classify each cleaned title,
count the three labels, and pick the plurality label with
`max(counts, key=counts.get)` over the insertion order
`positivo, negativo, neutral`. -/
def analyzeTicker (stop : List Char → Bool) (classify : String → Label)
    (entry : NewsEntry) : SentimentResult :=
  let titles := titlesOf entry.raw
  if titles.isEmpty then
    { sentiments := [], sentiment_global := "neutral",
      num_pos := 0, num_neg := 0, num_neu := 0 }
  else
    let names := (titles.map (fun t => classify (clean_text stop t))).map labelName
    let num_pos := names.countP (fun s => s == "positivo")
    let num_neg := names.countP (fun s => s == "negativo")
    let num_neu := names.countP (fun s => s == "neutral")
    { sentiments := names,
      sentiment_global :=
        pyDictMax ("positivo", num_pos) [("negativo", num_neg), ("neutral", num_neu)],
      num_pos := num_pos, num_neg := num_neg, num_neu := num_neu }

/-- `NLPAgent.analyze` (`nlp_agent.py`): the per-ticker summary for
every ticker of the news dictionary, in order. -/
def analyze (stop : List Char → Bool) (classify : String → Label)
    (news : List (String × NewsEntry)) : List (String × SentimentResult) :=
  news.map (fun p => (p.1, analyzeTicker stop classify p.2))

/-! ## Market data (`data_utils.py`, `market_data_agent.py`)

A price series is the per-ticker `DataFrame` after `reset_index`: rows
carrying the date (first column), plus `Adj Close`/`Close` values;
`hasAdjClose` records whether the `Adj Close` column is present.
Prices are rationals; Python float division by zero raises
`ZeroDivisionError`, modelled by `Except.error`. -/

/-- One row of a ticker's price `DataFrame`. -/
structure PriceRow where
  date : Int
  adjClose : ℚ
  close : ℚ
deriving DecidableEq, Repr

/-- A ticker's price history (`DataFrame` after `reset_index`). -/
structure PriceSeries where
  hasAdjClose : Bool
  rows : List PriceRow
deriving DecidableEq, Repr

/-- Insert a row into a date-sorted list, after existing equal dates. -/
def insertByDate (r : PriceRow) : List PriceRow → List PriceRow
  | [] => [r]
  | x :: xs => if r.date < x.date then r :: x :: xs else x :: insertByDate r xs

/-- `df.sort_values(by=df.columns[0])`: sort the rows by the date
column (insertion sort; the source's intra-date tie order is an
unspecified pandas detail no claim depends on). -/
def sortByDate (rows : List PriceRow) : List PriceRow :=
  rows.foldr insertByDate []

/-- `"Adj Close" if "Adj Close" in df.columns else "Close"` applied to
a row. -/
def priceOf (s : PriceSeries) (r : PriceRow) : ℚ :=
  if s.hasAdjClose then r.adjClose else r.close

/-- `round(x, 2)` (two decimals; the model uses round-half-up on
rationals — no claim depends on the float half-to-even corner). -/
def round2 (q : ℚ) : ℚ :=
  (((q * 100 + 1 / 2).floor : ℤ) : ℚ) / 100

/-- One row of the summary table built by `summarize_market_data`. -/
structure SummaryRow where
  ticker : String
  fecha_inicio : Int
  fecha_fin : Int
  precio_inicio : ℚ
  precio_fin : ℚ
  variacion_pct : ℚ
deriving DecidableEq, Repr

/-- The keys of each row dict appended by `summarize_market_data`
(`data_utils.py`), in source order; `pd.DataFrame(rows)` takes its
columns from them. -/
def summaryRowKeys : List String :=
  ["ticker", "fecha_inicio", "fecha_fin", "precio_inicio", "precio_fin", "variacion_pct"]

/-- The loop body of `summarize_market_data` for one ticker: sort by
date, take first and last rows, read the price column, and compute the
percent change — `Except.error` where the Python raises
(`iloc[0]` on an empty frame; `/ price_start` with a zero start). -/
def summarizeRow (t : String) (s : PriceSeries) : Except String SummaryRow :=
  match sortByDate s.rows with
  | [] => Except.error "IndexError: single positional indexer is out-of-bounds"
  | first :: rest =>
    let lastRow := rest.getLastD first
    let price_start := priceOf s first
    let price_end := priceOf s lastRow
    if price_start = 0 then
      Except.error "ZeroDivisionError: float division by zero"
    else
      Except.ok
        { ticker := t, fecha_inicio := first.date, fecha_fin := lastRow.date,
          precio_inicio := round2 price_start, precio_fin := round2 price_end,
          variacion_pct := round2 ((price_end - price_start) / price_start * 100) }

/-- `summarize_market_data` (`data_utils.py`): one summary row per
ticker of the input mapping, in order; the first raising ticker aborts
the whole computation, as an uncaught Python exception does. -/
def summarize_market_data :
    List (String × PriceSeries) → Except String (List SummaryRow)
  | [] => Except.ok []
  | (t, s) :: rest =>
    match summarizeRow t s with
    | .error e => .error e
    | .ok row =>
      match summarize_market_data rest with
      | .error e => .error e
      | .ok rows => .ok (row :: rows)

/-- A `DataFrame` as far as the claims need it: its column list and its
rows. -/
structure SummaryTable where
  cols : List String
  rows : List SummaryRow
deriving DecidableEq, Repr

/-- `pd.DataFrame(rows)` for a list of row dicts sharing
`summaryRowKeys`: the columns come from the row keys, and an empty row
list yields a frame with NO columns. -/
def dataFrameOfRows (rows : List SummaryRow) : SummaryTable :=
  { cols := if rows.isEmpty then [] else summaryRowKeys, rows := rows }

/-- `MarketDataAgent.summarize` (`market_data_agent.py`): an empty
mapping short-circuits to an empty frame with the explicitly listed
columns (transcribed from `market_data_agent.py`, independently of
`summaryRowKeys`); otherwise delegate to `summarize_market_data`. -/
def marketAgentSummarize (d : List (String × PriceSeries)) : Except String SummaryTable :=
  if d.isEmpty then
    Except.ok
      { cols := ["ticker", "fecha_inicio", "fecha_fin",
                 "precio_inicio", "precio_fin", "variacion_pct"],
        rows := [] }
  else (summarize_market_data d).map dataFrameOfRows

/-- `get_market_data` (`data_utils.py`) with the `yf.download` call as
an oracle: tickers whose frame is empty are skipped (`continue`), the
rest enter the mapping in order. -/
def get_market_data (fetch : String → PriceSeries) (tickers : List String) :
    List (String × PriceSeries) :=
  tickers.filterMap (fun t => if (fetch t).rows.isEmpty then none else some (t, fetch t))

/-! ## News acquisition (`data_utils.py`, `web_news_agent.py`)

The `requests.get` call is an oracle: it either raises or returns a
status code together with the `(href, stripped text)` pairs of the
page's anchor elements, which is everything the parser reads. -/

/-- Outcome of `requests.get` for one ticker. -/
inductive NewsFetchOutcome where
  | raises : NewsFetchOutcome
  | response : Nat → List (String × String) → NewsFetchOutcome
deriving DecidableEq, Repr

/-- `_fake_news_for_ticker` (`data_utils.py`): the fixed THREE-element
template list, truncated to `n` (`base[:n]`), with absent URLs. -/
def fake_news_for_ticker (ticker : String) (n : Nat) : List Article :=
  ([ticker ++ ": La compañía reporta resultados trimestrales mejor de lo esperado.",
    ticker ++ ": Analistas revisan sus perspectivas para la acción.",
    ticker ++ ": Noticias mixtas en el sector impactan el desempeño reciente."].take n).map
    (fun t => { titulo := t, url := none })

/-- Substring test (`"/news/" in href`). -/
def listContainsSub (needle : List Char) : List Char → Bool
  | [] => needle.isEmpty
  | c :: rest => needle.isPrefixOf (c :: rest) || listContainsSub needle rest

/-- `href if href.startswith("http") else "https://es-us.finanzas.yahoo.com" + href`. -/
def absolutizeUrl (href : String) : String :=
  if "http".isPrefixOf href then href
  else "https://es-us.finanzas.yahoo.com" ++ href

/-- The parsing loop of `get_news_for_tickers`: keep anchors whose
href contains `"/news/"` and whose text is non-empty, and stop as soon
as the article list has reached `max_articles` (`break` after the
append). -/
def collectArticles (maxA : Nat) : List (String × String) → List Article → List Article
  | [], acc => acc.reverse
  | (href, text) :: rest, acc =>
    if listContainsSub "/news/".data href.data && !(text == "") then
      let acc := { titulo := text, url := some (absolutizeUrl href) } :: acc
      if maxA ≤ acc.length then acc.reverse else collectArticles maxA rest acc
    else collectArticles maxA rest acc

/-- The per-ticker body of `get_news_for_tickers`: parse on a 200
response, and fall back to the synthetic templates when the request
raises, the status is not 200, or no article was parsed. -/
def newsForTicker (maxA : Nat) (t : String) (outcome : NewsFetchOutcome) : List Article :=
  match outcome with
  | .raises => fake_news_for_ticker t maxA
  | .response status links =>
    let articles := if status = 200 then collectArticles maxA links [] else []
    if articles.isEmpty || status ≠ 200 then fake_news_for_ticker t maxA else articles

/-- `get_news_for_tickers` (`data_utils.py`), with the HTTP fetch as an
oracle; `clean` is populated only when `limpiar` is set and a cleaning
function is supplied. -/
def get_news_for_tickers (fetch : String → NewsFetchOutcome) (maxA : Nat)
    (limpiar : Bool) (limpiar_fn : Option (String → String)) (tickers : List String) :
    List (String × NewsEntry) :=
  tickers.map (fun t =>
    let articles := newsForTicker maxA t (fetch t)
    let clean :=
      match limpiar, limpiar_fn with
      | true, some f => some (articles.map (fun a => f a.titulo))
      | _, _ => none
    (t, { raw := articles, clean := clean }))

/-! ## Coordinator (`coordinator_agent.py`) -/

/-- The record `CoordinatorAgent.run` assembles and appends to
`self.history`. -/
structure AnalysisRecord where
  user_query : String
  tickers : List String
  market_raw : List (String × PriceSeries)
  market_summary : SummaryTable
  news : List (String × NewsEntry)
  sentiments : List (String × SentimentResult)
  llm_answer : String
deriving DecidableEq, Repr

/-- The coordinator's external collaborators: the price feed, the news
fetch, the trained classifier's per-headline prediction, the stop-word
set, and the LLM call (`LLMAnalystAgent.build_and_call` catches every
exception and returns a fallback message, so it is a TOTAL function to
a string). -/
structure Oracles where
  marketFetch : String → PriceSeries
  newsFetch : String → NewsFetchOutcome
  classify : String → Label
  stop : List Char → Bool
  llm : String → SummaryTable → List (String × SentimentResult) →
    List (String × NewsEntry) → String

/-- Python truthiness of the `tickers` argument (`None` and `[]` are
both falsy), as tested by `if not tickers:`. -/
def pyTruthy : Option (List String) → Bool
  | none => false
  | some l => !l.isEmpty

/-- `if not tickers: tickers = extract_tickers_from_query(user_query)`. -/
def resolvedTickers (user_query : String) (tickers? : Option (List String)) :
    List String :=
  if pyTruthy tickers? then tickers?.getD [] else extract_tickers_from_query user_query

/-- `CoordinatorAgent.run` (`coordinator_agent.py`): resolve the ticker
list, fetch and summarise market data, fetch news, analyse sentiment,
call the LLM, assemble the record and append it to the history.  The
source wraps none of these steps in a handler, so an exception in the
summariser propagates out of `run` (modelled by `Except.error`), in
which case nothing is appended. -/
def coordinatorRun (o : Oracles) (maxA : Nat) (user_query : String)
    (tickers? : Option (List String)) (history : List AnalysisRecord) :
    Except String (AnalysisRecord × List AnalysisRecord) :=
  let tickers := resolvedTickers user_query tickers?
  let market_raw := get_market_data o.marketFetch tickers
  match marketAgentSummarize market_raw with
  | .error e => .error e
  | .ok market_summary =>
    let news := get_news_for_tickers o.newsFetch maxA false none tickers
    let sentiments := analyze o.stop o.classify news
    let llm_answer := o.llm user_query market_summary sentiments news
    let record : AnalysisRecord :=
      { user_query := user_query, tickers := tickers, market_raw := market_raw,
        market_summary := market_summary, news := news,
        sentiments := sentiments, llm_answer := llm_answer }
    .ok (record, history ++ [record])

/-! ## Concrete fixtures used by counterexamples and witnesses -/

/-- A one-row price series whose (adjusted-close) start price is zero. -/
def zeroStartSeries : PriceSeries :=
  { hasAdjClose := true, rows := [{ date := 0, adjClose := 0, close := 1 }] }

/-- A two-row upward price series. -/
def upSeries : PriceSeries :=
  { hasAdjClose := true,
    rows := [{ date := 0, adjClose := 10, close := 10 },
             { date := 1, adjClose := 11, close := 11 }] }

/-- Oracles whose price feed returns the zero-start series for every
ticker. -/
def zeroStartOracles : Oracles :=
  { marketFetch := fun _ => zeroStartSeries,
    newsFetch := fun _ => .raises,
    classify := fun _ => .neutral,
    stop := fun _ => false,
    llm := fun _ _ _ _ => "informe" }

/-- Oracles whose price feed always returns an empty series. -/
def emptyMarketOracles : Oracles :=
  { marketFetch := fun _ => { hasAdjClose := false, rows := [] },
    newsFetch := fun _ => .raises,
    classify := fun _ => .positivo,
    stop := fun _ => false,
    llm := fun _ _ _ _ => "informe" }

/-- Oracles whose price feed returns the upward series for every ticker. -/
def upMarketOracles : Oracles :=
  { marketFetch := fun _ => upSeries,
    newsFetch := fun _ => .raises,
    classify := fun _ => .positivo,
    stop := fun _ => false,
    llm := fun _ _ _ _ => "informe" }

/-- The record a run over `emptyMarketOracles` assembles for the
tickerless query `"hola"`. -/
def emptyQueryRecord : AnalysisRecord :=
  { user_query := "hola", tickers := [], market_raw := [],
    market_summary := { cols := summaryRowKeys, rows := [] },
    news := [], sentiments := [], llm_answer := "informe" }

/-! # Theorems -/

/-! ## Ticker extraction: the scanner agrees with the maximal-run view -/

theorem isWordChar_of_upperAZ {c : Char} (h : isUpperAZ c = true) :
    isWordChar c = true := by
  simp only [isUpperAZ] at h
  simp [isWordChar, Char.isAlpha, h]

theorem maximalRuns_nil (wc : Char → Bool) : maximalRuns wc [] = [] := by
  simp [maximalRuns, List.splitOnP_nil]

theorem maximalRuns_cons_neg {wc : Char → Bool} {c : Char} (h : wc c = false)
    (cs : List Char) : maximalRuns wc (c :: cs) = maximalRuns wc cs := by
  simp [maximalRuns, List.splitOnP_cons, h]

theorem acceptedRuns_nil (wc : Char → Bool) : acceptedRuns wc [] = [] := by
  simp [acceptedRuns, maximalRuns_nil]

theorem acceptedRuns_cons_neg {wc : Char → Bool} {c : Char} (h : wc c = false)
    (cs : List Char) : acceptedRuns wc (c :: cs) = acceptedRuns wc cs := by
  simp [acceptedRuns, maximalRuns_cons_neg h]

theorem dropWhile_head_false {α : Type} {p : α → Bool} (l : List α) :
    ∀ {y : α} {ys : List α}, l.dropWhile p = y :: ys → p y = false := by
  induction l with
  | nil => intro y ys h; simp at h
  | cons c cs ih =>
    intro y ys h
    by_cases hc : p c
    · rw [List.dropWhile_cons_of_pos hc] at h; exact ih h
    · rw [List.dropWhile_cons_of_neg hc] at h
      injection h with h1 _
      subst h1; simpa using hc

theorem maximalRuns_word_append {wc : Char → Bool} (w : List Char) (hne : w ≠ [])
    (hall : ∀ x ∈ w, wc x = true) (cs : List Char) :
    maximalRuns wc (w ++ cs) =
      (w ++ cs.takeWhile wc) :: maximalRuns wc (cs.dropWhile wc) := by
  have hmemtake : ∀ x ∈ cs.takeWhile wc, wc x = true := fun x hx =>
    List.all_eq_true.mp (List.all_takeWhile (p := wc) (l := cs)) x hx
  cases hdrop : cs.dropWhile wc with
  | nil =>
    have htake : cs.takeWhile wc = cs := by
      have h := List.takeWhile_append_dropWhile (p := wc) (l := cs)
      rw [hdrop, List.append_nil] at h; exact h
    have hnop : ∀ x ∈ w ++ cs, ¬((fun c => !(wc c)) x = true) := by
      intro x hx
      rcases List.mem_append.mp hx with hw | hcs
      · simp [hall x hw]
      · simp [hmemtake x (by rw [htake]; exact hcs)]
    rw [maximalRuns, List.splitOnP_eq_single _ _ hnop, maximalRuns_nil, htake]
    have : (w ++ cs).isEmpty = false := by
      cases w with
      | nil => exact absurd rfl hne
      | cons a w => rfl
    simp [this]
  | cons y ys =>
    have hy : wc y = false := dropWhile_head_false cs hdrop
    have hsplit : w ++ cs = (w ++ cs.takeWhile wc) ++ y :: ys := by
      conv_lhs =>
        rw [← List.takeWhile_append_dropWhile (p := wc) (l := cs), hdrop]
      rw [List.append_assoc]
    have hxs : ∀ x ∈ w ++ cs.takeWhile wc, ¬((fun c => !(wc c)) x = true) := by
      intro x hx
      rcases List.mem_append.mp hx with hw | ht
      · simp [hall x hw]
      · simp [hmemtake x ht]
    have hsep : ((fun c => !(wc c)) y) = true := by simp [hy]
    rw [maximalRuns, hsplit, List.splitOnP_first _ _ hxs y hsep ys]
    have hheadne : (w ++ cs.takeWhile wc).isEmpty = false := by
      cases w with
      | nil => exact absurd rfl hne
      | cons a w => rfl
    rw [maximalRuns_cons_neg hy]
    simp only [List.filter_cons, hheadne, Bool.not_false, if_pos]
    rfl

theorem scanGo_spec (cs : List Char) :
    (∀ (acc : List Char) (b : Bool), acc ≠ [] → acc.all isUpperAZ = true →
      scanGo (some acc) b cs = acceptedRuns isWordChar (acc.reverse ++ cs)) ∧
    scanGo none true cs = acceptedRuns isWordChar (cs.dropWhile isWordChar) ∧
    scanGo none false cs = acceptedRuns isWordChar cs := by
  induction cs with
  | nil =>
    refine ⟨?_, by simp [scanGo, acceptedRuns_nil], by simp [scanGo, acceptedRuns_nil]⟩
    intro acc b hne hall
    have hrevne : acc.reverse ≠ [] := by simpa using hne
    have hrevall : ∀ x ∈ acc.reverse, isWordChar x = true := fun x hx =>
      isWordChar_of_upperAZ (List.all_eq_true.mp hall x (List.mem_reverse.mp hx))
    have hR : acceptedRuns isWordChar (acc.reverse ++ []) =
        if acc.length ≤ 5 then [acc.reverse] else [] := by
      rw [acceptedRuns, maximalRuns_word_append acc.reverse hrevne hrevall []]
      simp only [List.takeWhile_nil, List.dropWhile_nil, List.append_nil,
        maximalRuns_nil, List.filter_cons, List.filter_nil]
      have hgr : goodRun acc.reverse = decide (acc.length ≤ 5) := by
        simp [goodRun, List.all_reverse, hall, List.length_reverse]
      rw [hgr]
      by_cases h5 : acc.length ≤ 5
      · simp [h5]
      · simp [h5]
    rw [hR]
    simp [scanGo]
  | cons c cs ih =>
    obtain ⟨ihSome, ihTrue, ihFalse⟩ := ih
    refine ⟨?_, ?_, ?_⟩
    · -- scanning with a live candidate run
      intro acc b hne hall
      have hrevne : acc.reverse ≠ [] := by simpa using hne
      have hrevall : ∀ x ∈ acc.reverse, isWordChar x = true := fun x hx =>
        isWordChar_of_upperAZ (List.all_eq_true.mp hall x (List.mem_reverse.mp hx))
      cases hu : isUpperAZ c with
      | true =>
        have hstep : scanGo (some acc) b (c :: cs) = scanGo (some (c :: acc)) true cs := by
          simp [scanGo, hu]
        rw [hstep, ihSome (c :: acc) true (by simp) (by simp [hu, hall])]
        simp [List.reverse_cons, List.append_assoc]
      | false =>
        cases hw : isWordChar c with
        | true =>
          have hstep : scanGo (some acc) b (c :: cs) = scanGo none true cs := by
            simp [scanGo, hu, hw]
          have hR : acceptedRuns isWordChar (acc.reverse ++ c :: cs) =
              acceptedRuns isWordChar (cs.dropWhile isWordChar) := by
            rw [acceptedRuns, maximalRuns_word_append acc.reverse hrevne hrevall (c :: cs),
              List.takeWhile_cons_of_pos hw, List.dropWhile_cons_of_pos hw,
              List.filter_cons_of_neg (by simp [goodRun, hu])]
            rfl
          rw [hstep, ihTrue]
          exact hR.symm
        | false =>
          have hstep : scanGo (some acc) b (c :: cs) =
              (if acc.length ≤ 5 then [acc.reverse] else []) ++ scanGo none false cs := by
            simp [scanGo, hu, hw]
          have hR : acceptedRuns isWordChar (acc.reverse ++ c :: cs) =
              (if acc.length ≤ 5 then [acc.reverse] else []) ++
                acceptedRuns isWordChar cs := by
            rw [acceptedRuns, maximalRuns_word_append acc.reverse hrevne hrevall (c :: cs),
              List.takeWhile_cons_of_neg (by simp [hw]),
              List.dropWhile_cons_of_neg (by simp [hw]),
              List.append_nil, maximalRuns_cons_neg hw, List.filter_cons]
            have hgr : goodRun acc.reverse = decide (acc.length ≤ 5) := by
              simp [goodRun, List.all_reverse, hall, List.length_reverse]
            rw [hgr]
            by_cases h5 : acc.length ≤ 5
            · simp [h5]; rfl
            · simp [h5]; rfl
          rw [hstep, ihFalse]
          exact hR.symm
    · -- scanning inside a word with no candidate run
      cases hw : isWordChar c with
      | true =>
        have hstep : scanGo none true (c :: cs) = scanGo none true cs := by
          simp [scanGo, hw]
        rw [hstep, ihTrue, List.dropWhile_cons_of_pos hw]
      | false =>
        have hstep : scanGo none true (c :: cs) = scanGo none false cs := by
          simp [scanGo, hw]
        rw [hstep, ihFalse, List.dropWhile_cons_of_neg (by simp [hw]),
          acceptedRuns_cons_neg hw]
    · -- scanning at a word boundary
      cases hu : isUpperAZ c with
      | true =>
        have hstep : scanGo none false (c :: cs) = scanGo (some [c]) true cs := by
          simp [scanGo, hu]
        rw [hstep, ihSome [c] true (by simp) (by simp [hu])]
        rfl
      | false =>
        cases hw : isWordChar c with
        | true =>
          have hstep : scanGo none false (c :: cs) = scanGo none true cs := by
            simp [scanGo, hu, hw]
          have hR : acceptedRuns isWordChar (c :: cs) =
              acceptedRuns isWordChar (cs.dropWhile isWordChar) := by
            rw [show (c :: cs) = [c] ++ cs from rfl, acceptedRuns,
              maximalRuns_word_append [c] (by simp) (by simpa using hw) cs,
              List.filter_cons_of_neg (by simp [goodRun, hu])]
            rfl
          rw [hstep, ihTrue]
          exact hR.symm
        | false =>
          have hstep : scanGo none false (c :: cs) = scanGo none false cs := by
            simp [scanGo, hu, hw]
          rw [hstep, ihFalse, acceptedRuns_cons_neg hw]

theorem scanGo_none_no_upper (cs : List Char)
    (h : ∀ c ∈ cs, isUpperAZ c = false) : ∀ b, scanGo none b cs = [] := by
  induction cs with
  | nil => intro b; rfl
  | cons c cs ih =>
    intro b
    have hc : isUpperAZ c = false := h c (by simp)
    simp [scanGo, hc, ih (fun x hx => h x (by simp [hx]))]

/-- C3 (counterexample): the claim reads the pattern's boundaries as
NON-LETTER boundaries, but `\b` is a word boundary: digits and
underscore also count as word characters.  On the query `"AAPL1"` the
claim's reading extracts `["AAPL"]` (the run `AAPL` is bounded by the
start of the string and the non-letter `'1'`), while
`extract_tickers_from_query` extracts nothing, because `'1'` is a word
character and `AAPL1` is not an uppercase word run. -/
theorem extract_tickers_boundary_counterexample :
    extract_tickers_from_query "AAPL1" = [] ∧
    claimedExtract "AAPL1" = ["AAPL"] ∧
    extract_tickers_from_query "AAPL1" ≠ claimedExtract "AAPL1" := by
  refine ⟨by decide, by decide, by decide⟩

/-- C3 (amended): `extract` returns exactly the maximal runs of 1–5
uppercase ASCII letters bounded by non-WORD boundaries (characters
other than letters, digits and underscore, per the regex `\b`), in
first-occurrence order with duplicates removed; in particular
`"Analiza AAPL y NVDA esta semana"` yields `["AAPL", "NVDA"]`,
duplicates are dropped, and a query containing no uppercase letter
(including an empty or whitespace-only query) yields the empty list,
not an error. -/
theorem extract_tickers_spec :
    (∀ q : String, extract_tickers_from_query q = wordBoundedExtract q) ∧
    extract_tickers_from_query "Analiza AAPL y NVDA esta semana" = ["AAPL", "NVDA"] ∧
    extract_tickers_from_query "AAPL AAPL NVDA" = ["AAPL", "NVDA"] ∧
    extract_tickers_from_query "" = [] ∧
    extract_tickers_from_query "   " = [] ∧
    (∀ q : String, (∀ c ∈ q.data, isUpperAZ c = false) →
      extract_tickers_from_query q = []) := by
  refine ⟨?_, by decide, by decide, by decide, by decide, ?_⟩
  · intro q
    rw [extract_tickers_from_query, wordBoundedExtract, (scanGo_spec q.data).2.2]
  · intro q h
    rw [extract_tickers_from_query, scanGo_none_no_upper q.data h false]
    rfl

/-- Witness for `extract_tickers_spec`: its universally quantified
no-uppercase conjunct applied at the concrete query `"hola 123"`. -/
theorem extract_tickers_spec_witness :
    extract_tickers_from_query "hola 123" = [] :=
  extract_tickers_spec.2.2.2.2.2 "hola 123" (by decide)

/-! ## Text normalisation: idempotence (claim C6) -/

theorem mem_splitOnP {α : Type} {p : α → Bool} :
    ∀ (l : List α) (t : List α), t ∈ l.splitOnP p → ∀ c ∈ t, c ∈ l ∧ p c = false := by
  intro l
  induction l with
  | nil =>
    intro t ht c hc
    rw [List.splitOnP_nil] at ht
    simp only [List.mem_singleton] at ht
    subst ht
    simp at hc
  | cons a l ih =>
    intro t ht c hc
    rw [List.splitOnP_cons] at ht
    by_cases ha : p a = true
    · rw [if_pos ha] at ht
      rcases List.mem_cons.mp ht with h1 | h1
      · subst h1; simp at hc
      · have h := ih t h1 c hc
        exact ⟨List.mem_cons_of_mem a h.1, h.2⟩
    · rw [if_neg ha] at ht
      cases hsp : l.splitOnP p with
      | nil => exact absurd hsp (List.splitOnP_ne_nil _ _)
      | cons u us =>
        rw [hsp, List.modifyHead_cons] at ht
        rcases List.mem_cons.mp ht with h1 | h1
        · subst h1
          rcases List.mem_cons.mp hc with h2 | h2
          · subst h2
            exact ⟨List.mem_cons_self _ _, by simpa using ha⟩
          · have h := ih u (by rw [hsp]; exact List.mem_cons_self _ _) c h2
            exact ⟨List.mem_cons_of_mem a h.1, h.2⟩
        · have h := ih t (by rw [hsp]; exact List.mem_cons_of_mem u h1) c hc
          exact ⟨List.mem_cons_of_mem a h.1, h.2⟩

theorem tokenize_chars (cs : List Char) :
    ∀ t ∈ tokenize cs, t ≠ [] ∧ ∀ c ∈ t, c ∈ cs ∧ c.isWhitespace = false := by
  intro t ht
  rw [tokenize, List.mem_filter] at ht
  obtain ⟨hsp, hne⟩ := ht
  refine ⟨by simpa using hne, fun c hc => mem_splitOnP cs t hsp c hc⟩

theorem subSymbols_char {l : List Char} {c : Char} (hc : c ∈ subSymbols l)
    (hws : c.isWhitespace = false) : keepChar c = true := by
  rw [subSymbols] at hc
  obtain ⟨d, _, hd⟩ := List.mem_map.mp hc
  by_cases hk : (keepChar d || d.isWhitespace) = true
  · rw [if_pos hk] at hd
    subst hd
    rw [Bool.or_eq_true] at hk
    rcases hk with h | h
    · exact h
    · rw [h] at hws; cases hws
  · rw [if_neg hk] at hd
    subst hd
    cases hws

theorem pyLower_keep {c : Char} (h : keepChar c = true) : pyLower c = c := by
  rw [keepChar, Bool.or_eq_true, Bool.or_eq_true] at h
  rcases h with (hl | ha) | hd
  · have hval : 97 ≤ c.val.toNat ∧ c.val.toNat ≤ 122 := by
      rw [Char.isLower, Bool.and_eq_true] at hl
      obtain ⟨h1, h2⟩ := hl
      exact ⟨UInt32.le_toNat_of_le (by decide) (of_decide_eq_true h1),
        UInt32.toNat_le_of_le (by decide) (of_decide_eq_true h2)⟩
    have hne : ∀ d : Char, d.val.toNat ≥ 128 → c ≠ d := by
      intro d hd2 hcd; subst hcd; omega
    rw [pyLower, if_neg (hne 'Á' (by decide)), if_neg (hne 'É' (by decide)),
      if_neg (hne 'Í' (by decide)), if_neg (hne 'Ó' (by decide)),
      if_neg (hne 'Ú' (by decide)), if_neg (hne 'Ñ' (by decide)),
      if_neg (hne 'Ü' (by decide)), Char.toLower]
    have hrange : ¬(c.toNat ≥ 65 ∧ c.toNat ≤ 90) := by
      rw [Char.toNat]; omega
    rw [if_neg hrange]
  · rw [isSpanishAccent] at ha
    simp only [Bool.or_eq_true, decide_eq_true_eq] at ha
    rcases ha with ((((((h1 | h1) | h1) | h1) | h1) | h1) | h1) <;> subst h1 <;> decide
  · have hval : 48 ≤ c.val.toNat ∧ c.val.toNat ≤ 57 := by
      rw [Char.isDigit, Bool.and_eq_true] at hd
      obtain ⟨h1, h2⟩ := hd
      exact ⟨UInt32.le_toNat_of_le (by decide) (of_decide_eq_true h1),
        UInt32.toNat_le_of_le (by decide) (of_decide_eq_true h2)⟩
    have hne : ∀ d : Char, d.val.toNat ≥ 128 → c ≠ d := by
      intro d hd2 hcd; subst hcd; omega
    rw [pyLower, if_neg (hne 'Á' (by decide)), if_neg (hne 'É' (by decide)),
      if_neg (hne 'Í' (by decide)), if_neg (hne 'Ó' (by decide)),
      if_neg (hne 'Ú' (by decide)), if_neg (hne 'Ñ' (by decide)),
      if_neg (hne 'Ü' (by decide)), Char.toLower]
    have hrange : ¬(c.toNat ≥ 65 ∧ c.toNat ≤ 90) := by
      rw [Char.toNat]; omega
    rw [if_neg hrange]

theorem cleanTokens_token_facts (stop : List Char → Bool) (cs : List Char) :
    ∀ t ∈ cleanTokens stop cs,
      (t ≠ [] ∧ ∀ c ∈ t, c.isWhitespace = false ∧ keepChar c = true) ∧
      (!stop t && decide (2 < t.length)) = true := by
  intro t ht
  rw [cleanTokens, List.mem_filter] at ht
  obtain ⟨htok, hpred⟩ := ht
  have hfacts := tokenize_chars _ t htok
  refine ⟨⟨hfacts.1, ?_⟩, hpred⟩
  intro c hc
  have h1 := hfacts.2 c hc
  exact ⟨h1.2, subSymbols_char h1.1 h1.2⟩

theorem mem_joinTokens : ∀ (ts : List (List Char)) (c : Char), c ∈ joinTokens ts →
    c = ' ' ∨ ∃ t ∈ ts, c ∈ t := by
  intro ts
  induction ts with
  | nil => intro c hc; simp [joinTokens] at hc
  | cons t ts ih =>
    intro c hc
    cases ts with
    | nil =>
      right; exact ⟨t, by simp, by simpa [joinTokens] using hc⟩
    | cons t2 ts2 =>
      rw [show joinTokens (t :: t2 :: ts2) = t ++ ' ' :: joinTokens (t2 :: ts2) from rfl] at hc
      rcases List.mem_append.mp hc with h | h
      · right; exact ⟨t, by simp, h⟩
      · rcases List.mem_cons.mp h with h2 | h2
        · left; exact h2
        · rcases ih c h2 with h3 | ⟨u, hu, hcu⟩
          · left; exact h3
          · right; exact ⟨u, by simp [hu], hcu⟩

theorem tokenize_joinTokens :
    ∀ ts : List (List Char),
      (∀ t ∈ ts, t ≠ [] ∧ ∀ c ∈ t, c.isWhitespace = false) →
      tokenize (joinTokens ts) = ts := by
  intro ts
  induction ts with
  | nil => intro _; rfl
  | cons t ts ih =>
    intro h
    obtain ⟨htne, htws⟩ := h t (by simp)
    have hno : ∀ x ∈ t, ¬((fun c => c.isWhitespace) x = true) := fun x hx => by
      simp [htws x hx]
    have htE : t.isEmpty = false := by
      cases t with
      | nil => exact absurd rfl htne
      | cons a l => rfl
    cases ts with
    | nil =>
      show tokenize (joinTokens [t]) = [t]
      rw [show joinTokens [t] = t from rfl, tokenize,
        List.splitOnP_eq_single _ _ hno]
      simp [htE]
    | cons t2 ts2 =>
      have hrest : ∀ u ∈ t2 :: ts2, u ≠ [] ∧ ∀ c ∈ u, c.isWhitespace = false :=
        fun u hu => h u (by simp [hu])
      rw [show joinTokens (t :: t2 :: ts2) = t ++ ' ' :: joinTokens (t2 :: ts2) from rfl,
        tokenize, List.splitOnP_first _ _ hno ' ' (by decide) _,
        List.filter_cons_of_pos (by simp [htE])]
      rw [show List.filter (fun u => !u.isEmpty)
          (List.splitOnP (fun c => c.isWhitespace) (joinTokens (t2 :: ts2))) =
          tokenize (joinTokens (t2 :: ts2)) from rfl]
      rw [ih hrest]

theorem cleanTokens_joinTokens (stop : List Char → Bool) (cs : List Char) :
    cleanTokens stop (joinTokens (cleanTokens stop cs)) = cleanTokens stop cs := by
  have hfacts := cleanTokens_token_facts stop cs
  have hchar : ∀ c ∈ joinTokens (cleanTokens stop cs),
      c = ' ' ∨ (c.isWhitespace = false ∧ keepChar c = true) := by
    intro c hc
    rcases mem_joinTokens _ c hc with h | ⟨t, ht, hct⟩
    · exact Or.inl h
    · exact Or.inr ((hfacts t ht).1.2 c hct)
  have hlower : (joinTokens (cleanTokens stop cs)).map pyLower =
      joinTokens (cleanTokens stop cs) := by
    rw [show (joinTokens (cleanTokens stop cs)).map pyLower =
        (joinTokens (cleanTokens stop cs)).map id from List.map_congr_left ?_,
      List.map_id]
    intro c hc
    rcases hchar c hc with h | ⟨_, hk⟩
    · subst h; decide
    · exact pyLower_keep hk
  have hsub : subSymbols (joinTokens (cleanTokens stop cs)) =
      joinTokens (cleanTokens stop cs) := by
    rw [subSymbols, show (joinTokens (cleanTokens stop cs)).map _ =
        (joinTokens (cleanTokens stop cs)).map id from List.map_congr_left ?_,
      List.map_id]
    intro c hc
    rcases hchar c hc with h | ⟨hws, hk⟩
    · subst h; rfl
    · simp [hk]
  have htok : tokenize (joinTokens (cleanTokens stop cs)) = cleanTokens stop cs := by
    apply tokenize_joinTokens
    intro t ht
    exact ⟨(hfacts t ht).1.1, fun c hc => ((hfacts t ht).1.2 c hc).1⟩
  rw [cleanTokens, hlower, hsub, htok]
  exact List.filter_eq_self.mpr (fun t ht => (hfacts t ht).2)

/-- C6 (confirmed): text normalisation is idempotent — for every
string `x` and every stop-word set,
`clean_text stop (clean_text stop x) = clean_text stop x`, where
`clean_text` lowercases, strips characters outside
letters/accented-letters/digits/whitespace, tokenizes, drops stop-words
and tokens of length ≤ 2, and rejoins with single spaces. -/
theorem clean_text_idempotent (stop : List Char → Bool) (x : String) :
    clean_text stop (clean_text stop x) = clean_text stop x := by
  unfold clean_text
  rw [show (String.mk (joinTokens (cleanTokens stop x.data))).data =
      joinTokens (cleanTokens stop x.data) from rfl,
    cleanTokens_joinTokens]

/-! ## Sentiment classification (claims C5, C7) -/

/-- C7 (confirmed): a ticker whose article list is empty, or contains
only empty titles, is mapped by `analyze` to the neutral aggregate with
an empty per-headline label sequence and all three counts zero —
`analyze` is a total function, so no error is possible. -/
theorem analyze_empty_titles (stop : List Char → Bool) (classify : String → Label)
    (news : List (String × NewsEntry)) (t : String) (e : NewsEntry)
    (hmem : (t, e) ∈ news) (h : ∀ a ∈ e.raw, a.titulo = "") :
    (t, ({ sentiments := [], sentiment_global := "neutral",
           num_pos := 0, num_neg := 0, num_neu := 0 } : SentimentResult)) ∈
      analyze stop classify news := by
  have htitles : titlesOf e.raw = [] := by
    rw [titlesOf]
    rw [List.filter_eq_nil_iff]
    intro x hx
    obtain ⟨a, ha, hax⟩ := List.mem_map.mp hx
    simp [← hax, h a ha]
  have hres : analyzeTicker stop classify e =
      { sentiments := [], sentiment_global := "neutral",
        num_pos := 0, num_neg := 0, num_neu := 0 } := by
    rw [analyzeTicker]
    simp [htitles]
  rw [analyze]
  exact List.mem_map.mpr ⟨(t, e), hmem, by rw [hres]⟩

/-- Witness for `analyze_empty_titles`: the theorem applied to a
singleton news dictionary whose only ticker has no articles. -/
theorem analyze_empty_titles_witness :
    ("AAPL", ({ sentiments := [], sentiment_global := "neutral",
                num_pos := 0, num_neg := 0, num_neu := 0 } : SentimentResult)) ∈
      analyze (fun _ => false) (fun _ => Label.positivo)
        [("AAPL", { raw := [], clean := none })] :=
  analyze_empty_titles (fun _ => false) (fun _ => Label.positivo)
    [("AAPL", { raw := [], clean := none })] "AAPL" { raw := [], clean := none }
    (by simp) (by simp)

theorem pyDictMax_spec (p n u : Nat) :
    (pyDictMax ("positivo", p) [("negativo", n), ("neutral", u)] = "positivo" ∧
      n ≤ p ∧ u ≤ p) ∨
    (pyDictMax ("positivo", p) [("negativo", n), ("neutral", u)] = "negativo" ∧
      p ≤ n ∧ u ≤ n) ∨
    (pyDictMax ("positivo", p) [("negativo", n), ("neutral", u)] = "neutral" ∧
      p ≤ u ∧ n ≤ u) := by
  rw [pyDictMax]
  simp only [List.foldl_cons, List.foldl_nil]
  by_cases h1 : p < n
  · rw [if_pos h1]
    by_cases h2 : n < u
    · rw [if_pos h2]; right; right; exact ⟨rfl, by omega, by omega⟩
    · rw [if_neg h2]; right; left; exact ⟨rfl, by omega, by omega⟩
  · rw [if_neg h1]
    by_cases h2 : p < u
    · rw [if_pos h2]; right; right; exact ⟨rfl, by omega, by omega⟩
    · rw [if_neg h2]; left; exact ⟨rfl, by omega, by omega⟩

theorem analyzeTicker_global_eq (stop : List Char → Bool) (classify : String → Label)
    (e : NewsEntry) (h : titlesOf e.raw ≠ []) :
    (analyzeTicker stop classify e).sentiment_global =
      pyDictMax ("positivo", (analyzeTicker stop classify e).num_pos)
        [("negativo", (analyzeTicker stop classify e).num_neg),
         ("neutral", (analyzeTicker stop classify e).num_neu)] := by
  cases htl : titlesOf e.raw with
  | nil => exact absurd htl h
  | cons a as =>
    rw [analyzeTicker]
    simp [htl]

/-- C5 (confirmed): for every ticker with at least one non-empty
title, the aggregate label picked by `analyzeTicker` has a maximal
count among the three labels, and the aggregate is a function of the
three counts alone — two calls with equal counts always produce the
same label (Python's `max` over a dict with fixed insertion order
`positivo, negativo, neutral` breaks ties towards the earlier key, a
fixed deterministic rule). -/
theorem analyzeTicker_plurality (stop : List Char → Bool) (classify : String → Label)
    (e : NewsEntry) (h : titlesOf e.raw ≠ []) :
    (((analyzeTicker stop classify e).sentiment_global = "positivo" ∧
        (analyzeTicker stop classify e).num_neg ≤ (analyzeTicker stop classify e).num_pos ∧
        (analyzeTicker stop classify e).num_neu ≤ (analyzeTicker stop classify e).num_pos) ∨
      ((analyzeTicker stop classify e).sentiment_global = "negativo" ∧
        (analyzeTicker stop classify e).num_pos ≤ (analyzeTicker stop classify e).num_neg ∧
        (analyzeTicker stop classify e).num_neu ≤ (analyzeTicker stop classify e).num_neg) ∨
      ((analyzeTicker stop classify e).sentiment_global = "neutral" ∧
        (analyzeTicker stop classify e).num_pos ≤ (analyzeTicker stop classify e).num_neu ∧
        (analyzeTicker stop classify e).num_neg ≤ (analyzeTicker stop classify e).num_neu)) ∧
    (∀ (stop2 : List Char → Bool) (classify2 : String → Label) (e2 : NewsEntry),
      titlesOf e2.raw ≠ [] →
      (analyzeTicker stop classify e).num_pos = (analyzeTicker stop2 classify2 e2).num_pos →
      (analyzeTicker stop classify e).num_neg = (analyzeTicker stop2 classify2 e2).num_neg →
      (analyzeTicker stop classify e).num_neu = (analyzeTicker stop2 classify2 e2).num_neu →
      (analyzeTicker stop classify e).sentiment_global =
        (analyzeTicker stop2 classify2 e2).sentiment_global) := by
  constructor
  · rw [analyzeTicker_global_eq stop classify e h]
    exact pyDictMax_spec _ _ _
  · intro stop2 classify2 e2 h2 hp hn hu
    rw [analyzeTicker_global_eq stop classify e h,
      analyzeTicker_global_eq stop2 classify2 e2 h2, hp, hn, hu]

/-- Witness for `analyzeTicker_plurality`: applied to a concrete entry
with one positive headline; the aggregate is `positivo`. -/
theorem analyzeTicker_plurality_witness :
    (analyzeTicker (fun _ => false) (fun _ => Label.positivo)
      { raw := [{ titulo := "sube", url := none }], clean := none }).sentiment_global
      = "positivo" := by
  have h := analyzeTicker_plurality (fun _ => false) (fun _ => Label.positivo)
    { raw := [{ titulo := "sube", url := none }], clean := none } (by decide)
  rcases h.1 with ⟨hg, _⟩ | ⟨hg, _⟩ | ⟨hg, _⟩
  · exact hg
  · exact absurd hg (by decide)
  · exact absurd hg (by decide)

/-! ## Market summary shape (claim C4) -/

/-- C4 (confirmed): `summarize` on the empty mapping returns a
zero-row table whose column list is exactly the one every non-empty
successful call produces (`ticker, fecha_inicio, fecha_fin,
precio_inicio, precio_fin, variacion_pct`), and does not fail. -/
theorem marketAgentSummarize_shape :
    marketAgentSummarize [] = Except.ok { cols := summaryRowKeys, rows := [] } ∧
    (∀ (d : List (String × PriceSeries)) (tbl : SummaryTable),
      d ≠ [] → marketAgentSummarize d = Except.ok tbl → tbl.cols = summaryRowKeys) := by
  constructor
  · rfl
  · intro d tbl hne hok
    cases d with
    | nil => exact absurd rfl hne
    | cons p rest =>
      obtain ⟨t, s⟩ := p
      rw [marketAgentSummarize] at hok
      simp only [List.isEmpty_cons, if_false, Bool.false_eq_true, reduceIte] at hok
      rw [summarize_market_data] at hok
      cases hrow : summarizeRow t s with
      | error e =>
        rw [hrow] at hok
        exact absurd hok (by simp [Except.map])
      | ok row =>
        rw [hrow] at hok
        cases hrest : summarize_market_data rest with
        | error e =>
          rw [hrest] at hok
          exact absurd hok (by simp [Except.map])
        | ok rows =>
          rw [hrest] at hok
          simp only [Except.map] at hok
          injection hok with h1
          rw [← h1]
          simp [dataFrameOfRows]

/-- Witness for `marketAgentSummarize_shape`: its non-empty conjunct
applied to a concrete one-ticker mapping. -/
theorem marketAgentSummarize_shape_witness :
    (dataFrameOfRows
      [{ ticker := "AAPL", fecha_inicio := 0, fecha_fin := 1,
         precio_inicio := round2 10, precio_fin := round2 11,
         variacion_pct := round2 ((11 - 10) / 10 * 100) }]).cols = summaryRowKeys :=
  marketAgentSummarize_shape.2 [("AAPL", upSeries)] _ (by simp) (by rfl)

/-! ## Zero start price (claim C1) -/

/-- C1 (counterexample): the claim asserts a coordinator run over a
ticker set containing a zero-start-price ticker does not raise.  With
a price feed returning a zero-start series for the extracted ticker
`AAPL`, the run propagates the ZeroDivisionError instead of omitting
the row and proceeding. -/
theorem coordinator_zero_start_counterexample :
    coordinatorRun zeroStartOracles 5 "Analiza AAPL esta semana" none [] =
      Except.error "ZeroDivisionError: float division by zero" := by
  rfl

/-- C1 (amended): a zero start price makes the percent-change
computation fail with a ZeroDivisionError-class error — the embedded
computation returns `Except.error`, never a NaN/inf-like value — but
the coordinator does NOT contain it: `CoordinatorAgent.run` wraps the
summarisation in no handler, so the error propagates out of the whole
run, no record is produced or appended, and the rest of the pipeline
does not proceed for any ticker of that run. -/
theorem zero_start_price_propagates :
    (∀ (t : String) (s : PriceSeries) (first : PriceRow) (rest : List PriceRow),
      sortByDate s.rows = first :: rest → priceOf s first = 0 →
      summarizeRow t s = Except.error "ZeroDivisionError: float division by zero") ∧
    (∀ (o : Oracles) (maxA : Nat) (q : String) (tickers? : Option (List String))
      (hist : List AnalysisRecord) (e : String),
      marketAgentSummarize (get_market_data o.marketFetch (resolvedTickers q tickers?)) =
        Except.error e →
      coordinatorRun o maxA q tickers? hist = Except.error e) := by
  constructor
  · intro t s first rest hsort hzero
    rw [summarizeRow, hsort]
    simp [hzero]
  · intro o maxA q t? hist e herr
    simp only [coordinatorRun, herr]

/-- Witness for `zero_start_price_propagates`: both conjuncts applied
to the concrete zero-start fixture. -/
theorem zero_start_price_propagates_witness :
    summarizeRow "AAPL" zeroStartSeries =
      Except.error "ZeroDivisionError: float division by zero" ∧
    coordinatorRun zeroStartOracles 5 "Analiza NVDA" none [] =
      Except.error "ZeroDivisionError: float division by zero" :=
  ⟨zero_start_price_propagates.1 "AAPL" zeroStartSeries
      { date := 0, adjClose := 0, close := 1 } [] (by rfl) (by rfl),
   zero_start_price_propagates.2 zeroStartOracles 5 "Analiza NVDA" none [] _ (by rfl)⟩

/-! ## News fallback (claim C2) -/

/-- C2 (counterexample): with `max_articles = 5` (the coordinator's
default) and a raising fetch, the fallback result for a ticker has
only 3 items — the fixed template list has three entries and
`base[:n]` cannot extend it — not `max_articles = 5` as claimed. -/
theorem news_fallback_count_counterexample :
    get_news_for_tickers (fun _ => .raises) 5 false none ["AAPL"] =
      [("AAPL", { raw := fake_news_for_ticker "AAPL" 5, clean := none })] ∧
    (fake_news_for_ticker "AAPL" 5).length = 3 ∧ (3 : Nat) ≠ 5 := by
  refine ⟨rfl, rfl, by decide⟩

/-- C2 (amended): for every ticker `T` and every `max_articles`, when
the news fetch for `T` raises, returns a non-success status, or parses
zero items, the result for `T` is the synthetic fixed-template list
truncated to `min max_articles 3` items (exactly `max_articles` only
when `max_articles ≤ 3`, since the template set has three entries),
each with an absent URL. -/
theorem news_fallback_spec (fetch : String → NewsFetchOutcome) (maxA : Nat)
    (tickers : List String) (t : String) (hmem : t ∈ tickers)
    (hfail : fetch t = .raises ∨
      (∀ st links, fetch t = .response st links →
        st ≠ 200 ∨ collectArticles maxA links [] = [])) :
    (t, ({ raw := fake_news_for_ticker t maxA, clean := none } : NewsEntry)) ∈
      get_news_for_tickers fetch maxA false none tickers ∧
    (fake_news_for_ticker t maxA).length = min maxA 3 ∧
    (∀ a ∈ fake_news_for_ticker t maxA, a.url = none) := by
  have hfall : newsForTicker maxA t (fetch t) = fake_news_for_ticker t maxA := by
    cases hf : fetch t with
    | raises => rfl
    | response st links =>
      rcases hfail with h | h
      · rw [hf] at h; cases h
      · rcases h st links hf with hst | hcoll
        · simp [newsForTicker, hst]
        · by_cases hst : st = 200
          · subst hst; simp [newsForTicker, hcoll]
          · simp [newsForTicker, hst]
  refine ⟨?_, ?_, ?_⟩
  · rw [get_news_for_tickers]
    exact List.mem_map.mpr ⟨t, hmem, by rw [hfall]⟩
  · simp [fake_news_for_ticker]
  · intro a ha
    rw [fake_news_for_ticker] at ha
    obtain ⟨x, _, hx⟩ := List.mem_map.mp ha
    rw [← hx]

/-- Witness for `news_fallback_spec`: applied to a raising fetch with
the default `max_articles = 5` over the singleton ticker list. -/
theorem news_fallback_spec_witness :
    ("AAPL", ({ raw := fake_news_for_ticker "AAPL" 5, clean := none } : NewsEntry)) ∈
      get_news_for_tickers (fun _ => .raises) 5 false none ["AAPL"] ∧
    (fake_news_for_ticker "AAPL" 5).length = min 5 3 ∧
    (∀ a ∈ fake_news_for_ticker "AAPL" 5, a.url = none) :=
  news_fallback_spec (fun _ => .raises) 5 ["AAPL"] "AAPL" (by simp) (Or.inl rfl)

/-! ## Coordinator behaviour (claims C8, C9, C10) -/

/-- C8 (confirmed): when ticker extraction yields the empty sequence
and no explicit tickers are supplied, the coordinator still executes
every remaining stage with the empty ticker list and returns normally:
the record's market, news and sentiment sections are all empty, and
the record is appended to the history. -/
theorem coordinatorRun_no_tickers (o : Oracles) (maxA : Nat) (q : String)
    (hist : List AnalysisRecord) (h : extract_tickers_from_query q = []) :
    coordinatorRun o maxA q none hist =
      Except.ok
        ({ user_query := q, tickers := [], market_raw := [],
           market_summary := { cols := summaryRowKeys, rows := [] },
           news := [], sentiments := [],
           llm_answer := o.llm q { cols := summaryRowKeys, rows := [] } [] [] },
         hist ++
           [{ user_query := q, tickers := [], market_raw := [],
              market_summary := { cols := summaryRowKeys, rows := [] },
              news := [], sentiments := [],
              llm_answer := o.llm q { cols := summaryRowKeys, rows := [] } [] [] }]) := by
  have hres : resolvedTickers q none = [] := by
    rw [resolvedTickers]
    simp [pyTruthy, h]
  simp only [coordinatorRun, hres]
  rfl

/-- Witness for `coordinatorRun_no_tickers`: the tickerless query
`"hola"` over the empty-market oracles. -/
theorem coordinatorRun_no_tickers_witness :
    coordinatorRun emptyMarketOracles 5 "hola" none [] =
      Except.ok (emptyQueryRecord, [emptyQueryRecord]) :=
  coordinatorRun_no_tickers emptyMarketOracles 5 "hola" [] (by decide)

/-- C9 (confirmed): every completed (non-raising) coordinator run
appends exactly one record — the returned one — at the end of the
history it was given; nothing already stored is removed or modified,
since the new history is the old one plus the single appended record.
`run` is the only operation of the source that touches the history. -/
theorem coordinatorRun_appends (o : Oracles) (maxA : Nat) (q : String)
    (t? : Option (List String)) (hist : List AnalysisRecord)
    (rec : AnalysisRecord) (hist2 : List AnalysisRecord)
    (h : coordinatorRun o maxA q t? hist = Except.ok (rec, hist2)) :
    hist2 = hist ++ [rec] := by
  simp only [coordinatorRun] at h
  cases hms : marketAgentSummarize (get_market_data o.marketFetch (resolvedTickers q t?)) with
  | error e =>
    rw [hms] at h
    exact Except.noConfusion h
  | ok ms =>
    rw [hms] at h
    injection h with h1
    injection h1 with hrec hh
    rw [← hh, hrec]

/-- Witness for `coordinatorRun_appends`: the concrete run of
`coordinatorRun_no_tickers_witness`, starting from the empty history. -/
theorem coordinatorRun_appends_witness :
    [emptyQueryRecord] = [] ++ [emptyQueryRecord] :=
  coordinatorRun_appends emptyMarketOracles 5 "hola" none []
    emptyQueryRecord [emptyQueryRecord] (by rfl)

/-- C10 (confirmed): `if not tickers:` treats the explicit empty list
exactly like `None` — both are falsy — so `run(query, [])` and
`run(query, None)` coincide for every query, every oracle set and
every starting history. -/
theorem coordinatorRun_empty_list_eq_none (o : Oracles) (maxA : Nat) (q : String)
    (hist : List AnalysisRecord) :
    coordinatorRun o maxA q (some []) hist = coordinatorRun o maxA q none hist := by
  rfl

end FinAnalyst
